import Mathlib

/-!
# Verification of the `app.js` repository data pipeline

This file embeds the in-browser data pipeline of the GitHub repository
showcase (`src/app.js`) in Lean 4 and proves properties of it:

* `processRepositoryData` (app.js:188-235): payload flattening, validation
  filter, normalization with defaults, and the final star-descending sort;
* `createSearchText` (app.js:240-249);
* `performAdvancedSearch` (app.js:577-604): AND-of-terms filtering,
  field-weighted relevance scoring, score-descending stable sort;
* `sortRepositories` (app.js:461-497): the sort-key comparator switch;
* `groupRepositoriesByLanguage` (app.js:884-914): grouping and the
  popular/recently ordering of language groups;
* the language filter from `updateFilteredRepositories` (app.js:439-456).

Modeling conventions:

* JS strings are Lean `String`s; `toLowerCase`/`localeCompare` with base
  sensitivity are modeled at ASCII / code-point precision (`String.toLower`
  and lexicographic order on lowered strings).
* Timestamps (`created_at`, `updated_at`) are modeled as the integer value
  `new Date(s).getTime()` would produce, i.e. already-parsed epoch
  milliseconds; `new Date(b) - new Date(a)` becomes integer subtraction.
* Possibly-absent JS fields are `Option`s; JS truthiness tests on them are
  modeled explicitly (`0`, `""` and `undefined` are falsy).
* A record inside a data array may itself be `null`/`undefined`
  (`repositories.filter(repo => repo && ...)`), hence `Option RawRepo`
  entries in payload arrays.
* Thrown exceptions (the `TypeError`s reachable from `repo.owner.login` and
  `Object.keys(null)`) are modeled by `JsResult.thrown`.
* `Array.prototype.sort` is stable (ES2019); every comparator used by the
  source is a total preorder, for which all stable sorts agree, so it is
  modeled by the stable insertion sort `jsSort` below with
  `le a b := (comparator a b ≤ 0)`.
* `Object.keys`/`Object.entries` iteration order is insertion order for the
  non-numeric string keys used here (language names); ordered association
  lists model the objects used as maps.
-/

open List

/-- Result of a JS computation that can throw (the only exceptions reachable
in the modeled code are `TypeError`s, so no error payload is carried). -/
inductive JsResult (α : Type) where
  | ok (val : α)
  | thrown
  deriving DecidableEq, Repr

namespace JsResult

def map {α β : Type} (f : α → β) : JsResult α → JsResult β
  | .ok v => .ok (f v)
  | .thrown => .thrown

end JsResult

/-- The `owner` sub-object of a raw repository record. Only `login` is read
by the embedded logic (`createSearchText`, the scoring loop); `avatar_url`
and `html_url` are passed through untouched and omitted from the model. -/
structure Owner where
  login : String
  deriving DecidableEq, Repr

/-- A raw repository record from `data.json` (shape not controlled by the
application): every field may be absent. -/
structure RawRepo where
  id : Option Int
  name : Option String
  full_name : Option String
  description : Option String
  stargazers_count : Option Int
  language : Option String
  topics : Option (List String)
  created_at : Option Int
  updated_at : Option Int
  owner : Option Owner
  deriving DecidableEq, Repr

/-- A value stored under a language key of an object-format payload:
either an array of (possibly null) records, or some non-array value
(`Array.isArray(languageRepos)` guards the push). -/
inductive ObjEntryVal where
  | repos (xs : List (Option RawRepo))
  | nonArray
  deriving DecidableEq, Repr

/-- The JSON payload handed to `processRepositoryData`: an array, an object
keyed by language (keys listed in iteration order), or one of the
non-object values. `null` is separate because `typeof null === 'object'`
sends it into the object branch of the source. -/
inductive Payload where
  | arr (xs : List (Option RawRepo))
  | obj (kvs : List (String × ObjEntryVal))
  | nullV
  | str (s : String)
  | num (n : Int)
  | boolV (b : Bool)
  | undef
  deriving DecidableEq, Repr

/-- JS truthiness of a possibly-absent number (`undefined` and `0` falsy). -/
def jsTruthyInt : Option Int → Bool
  | none => false
  | some n => n != 0

/-- JS truthiness of a possibly-absent string (`undefined` and `""` falsy). -/
def jsTruthyStr : Option String → Bool
  | none => false
  | some s => s != ""

/-- `x || d` on a possibly-absent string (`undefined` and `""` fall back). -/
def jsOrStr (x : Option String) (d : String) : String :=
  match x with
  | none => d
  | some s => if s = "" then d else s

/-- `x || d` on a present string (`""` falls back). -/
def jsOrStr' (x d : String) : String :=
  if x = "" then d else x

/-- `toLowerCase`, modeled at ASCII precision (`Char.toLower`), written on
the character list so that it evaluates inside the kernel. -/
def strLower (s : String) : String :=
  ⟨s.data.map Char.toLower⟩

/-- Lexicographic code-point order on character lists (the order underlying
JS string comparison of the lowered strings). -/
def charListLt : List Char → List Char → Bool
  | [], [] => false
  | [], _ :: _ => true
  | _ :: _, [] => false
  | a :: as, b :: bs => a < b || (a == b && charListLt as bs)

/-- Lexicographic code-point order on strings. -/
def strLt (s t : String) : Bool :=
  charListLt s.data t.data

/-! ## Substring search: `String.prototype.includes` -/

/-- Does `pat` match at the head of `s`? -/
def leadMatch : List Char → List Char → Bool
  | [], _ => true
  | _ :: _, [] => false
  | p :: ps, c :: cs => p == c && leadMatch ps cs

/-- Does `pat` occur somewhere in `s` (as contiguous characters)? -/
def hasSubList (pat : List Char) : List Char → Bool
  | [] => pat.isEmpty
  | c :: cs => leadMatch pat (c :: cs) || hasSubList pat cs

/-- `s.includes(pat)` from JS. -/
def strIncludes (s pat : String) : Bool :=
  hasSubList pat.toList s.toList

/-! ## Comparator-based stable sort

`Array.prototype.sort` with a consistent comparator `c` is a stable sort
by the total preorder `le a b := c a b ≤ 0`. All stable sorts agree on
total preorders, so the canonical stable insertion sort below is an exact
model of the source's sort calls. -/

/-- Insert `a` into `l` before the first element `b` with `le a b` (so among
comparator-equal elements the inserted, originally-earlier element comes
first: stability). -/
def jsInsert {α : Type} (le : α → α → Bool) (a : α) : List α → List α
  | [] => [a]
  | b :: l => if le a b then a :: b :: l else b :: jsInsert le a l

/-- Stable sort by the boolean total preorder `le`. -/
def jsSort {α : Type} (le : α → α → Bool) : List α → List α
  | [] => []
  | a :: l => jsInsert le a (jsSort le l)

theorem jsInsert_perm {α : Type} (le : α → α → Bool) (a : α) (l : List α) :
    jsInsert le a l ~ a :: l := by
  induction l with
  | nil => simp [jsInsert]
  | cons b l ih =>
    simp only [jsInsert]
    by_cases h : le a b = true
    · simp [h]
    · simp only [h, if_false]
      exact (ih.cons b).trans (List.Perm.swap a b l)

theorem jsSort_perm {α : Type} (le : α → α → Bool) (l : List α) :
    jsSort le l ~ l := by
  induction l with
  | nil => simp [jsSort]
  | cons a l ih =>
    exact (jsInsert_perm le a (jsSort le l)).trans (ih.cons a)

theorem mem_jsInsert {α : Type} {le : α → α → Bool} {a x : α} {l : List α} :
    x ∈ jsInsert le a l ↔ x = a ∨ x ∈ l :=
  (jsInsert_perm le a l).mem_iff.trans (by simp)

theorem jsInsert_pairwise {α : Type} {le : α → α → Bool}
    (htot : ∀ a b, le a b = true ∨ le b a = true)
    (htrans : ∀ a b c, le a b = true → le b c = true → le a c = true)
    {a : α} {l : List α} (hl : l.Pairwise (fun x y => le x y = true)) :
    (jsInsert le a l).Pairwise (fun x y => le x y = true) := by
  induction l with
  | nil => simp [jsInsert]
  | cons b l ih =>
    rcases hl with _ | ⟨hb, hl⟩
    simp only [jsInsert]
    by_cases h : le a b = true
    · rw [if_pos h]
      refine List.Pairwise.cons ?_ (List.Pairwise.cons hb hl)
      intro x hx
      rcases List.mem_cons.mp hx with rfl | hx
      · exact h
      · exact htrans a b x h (hb x hx)
    · rw [if_neg h]
      refine List.Pairwise.cons ?_ (ih hl)
      intro x hx
      rcases mem_jsInsert.mp hx with hxa | hx
      · subst hxa
        rcases htot x b with h' | h'
        · exact absurd h' h
        · exact h'
      · exact hb x hx

theorem jsSort_sorted {α : Type} {le : α → α → Bool}
    (htot : ∀ a b, le a b = true ∨ le b a = true)
    (htrans : ∀ a b c, le a b = true → le b c = true → le a c = true)
    (l : List α) :
    (jsSort le l).Pairwise (fun x y => le x y = true) := by
  induction l with
  | nil => simp [jsSort]
  | cons a l ih => exact jsInsert_pairwise htot htrans ih

theorem jsInsert_of_forall_le {α : Type} {le : α → α → Bool} {a : α}
    {l : List α} (h : ∀ x ∈ l, le a x = true) :
    jsInsert le a l = a :: l := by
  cases l with
  | nil => rfl
  | cons b l => simp [jsInsert, h b (by simp)]

theorem jsSort_of_sorted {α : Type} {le : α → α → Bool} {l : List α}
    (hl : l.Pairwise (fun x y => le x y = true)) :
    jsSort le l = l := by
  induction l with
  | nil => rfl
  | cons a l ih =>
    rcases hl with _ | ⟨ha, hl⟩
    simp only [jsSort, ih hl]
    exact jsInsert_of_forall_le ha

theorem filter_jsInsert {α : Type} {le : α → α → Bool}
    (htrans : ∀ a b c, le a b = true → le b c = true → le a c = true)
    {p : α → Bool} {a : α} {l : List α}
    (hl : l.Pairwise (fun x y => le x y = true)) (hpa : p a = true) :
    (jsInsert le a l).filter p = jsInsert le a (l.filter p) := by
  induction l with
  | nil => simp [jsInsert, hpa]
  | cons b l ih =>
    rcases hl with _ | ⟨hb, hl⟩
    simp only [jsInsert]
    by_cases h : le a b = true
    · by_cases hpb : p b = true
      · simp [List.filter, h, hpa, hpb, jsInsert]
      · have hall : ∀ x ∈ l.filter p, le a x = true := by
          intro x hx
          exact htrans a b x h (hb x (List.mem_of_mem_filter hx))
        simp only [h, if_true, List.filter, hpa, hpb]
        rw [jsInsert_of_forall_le hall]
    · by_cases hpb : p b = true
      · simp only [h, if_false, List.filter, hpb, hpa, ih hl]
        simp [jsInsert, h]
      · simp only [h, if_false, List.filter, hpb]
        exact ih hl

theorem filter_jsInsert_neg {α : Type} {le : α → α → Bool} {p : α → Bool}
    {a : α} (l : List α) (hpa : p a = false) :
    (jsInsert le a l).filter p = l.filter p := by
  induction l with
  | nil => simp [jsInsert, List.filter, hpa]
  | cons b m ihm =>
    simp only [jsInsert]
    by_cases h : le a b = true
    · simp [List.filter, h, hpa]
    · simp only [h, if_false, List.filter]
      cases hpb : p b <;> simp [hpb, ihm]

theorem filter_jsSort {α : Type} {le : α → α → Bool}
    (htot : ∀ a b, le a b = true ∨ le b a = true)
    (htrans : ∀ a b c, le a b = true → le b c = true → le a c = true)
    (p : α → Bool) (l : List α) :
    (jsSort le l).filter p = jsSort le (l.filter p) := by
  induction l with
  | nil => rfl
  | cons a l ih =>
    simp only [jsSort, List.filter]
    by_cases hpa : p a = true
    · rw [hpa]
      rw [filter_jsInsert htrans (jsSort_sorted htot htrans l) hpa, ih]
      rfl
    · simp only [Bool.not_eq_true] at hpa
      rw [hpa, ← ih]
      exact filter_jsInsert_neg (jsSort le l) hpa

/-! ## Derived-field computations (app.js:240-249, 783-844) -/

/-- `formatNumber` (app.js:783-791). `toFixed(1)` is modeled at exact
decimal precision: the nearest multiple of 0.1, ties rounded up, which is
the ECMAScript `toFixed` rule applied to the exact rational `num/1000`
(resp. `num/1000000`); the arguments reaching the scaled branches are
positive integers. -/
def formatNumber (num : Int) : String :=
  if 1000000 ≤ num then
    let n := (num * 10 + 500000) / 1000000
    s!"{n / 10}.{n % 10}M"
  else if 1000 ≤ num then
    let n := (num * 10 + 500) / 1000
    s!"{n / 10}.{n % 10}K"
  else
    toString num

/-- The `intervals` table of `getRelativeTime` (app.js:801-807). -/
def relTimeIntervals : List (String × Int) :=
  [("year", 31536000), ("month", 2592000), ("day", 86400),
   ("hour", 3600), ("minute", 60)]

/-- The `for (const interval of intervals)` loop of `getRelativeTime`
(app.js:809-816): first interval whose floored count reaches 1 wins. -/
def relTimeScan (diffInSeconds : Int) : List (String × Int) → String
  | [] => "Just now"
  | (label, secs) :: rest =>
    let count := Int.fdiv diffInSeconds secs
    if 1 ≤ count then
      s!"{count} {label}" ++ (if 1 < count then "s" else "") ++ " ago"
    else relTimeScan diffInSeconds rest

/-- `getRelativeTime` (app.js:796-817). An absent date makes every
comparison against `NaN` false in JS, landing on `'Just now'`; `Math.floor`
of a real quotient is `Int.fdiv`. -/
def getRelativeTime (now : Int) (dateString : Option Int) : String :=
  match dateString with
  | none => "Just now"
  | some date => relTimeScan (Int.fdiv (now - date) 1000) relTimeIntervals

/-- The `colors` table of `getLanguageColor` (app.js:823-841). -/
def languageColors : List (String × String) :=
  [("TypeScript", "#3178c6"), ("JavaScript", "#f1e05a"), ("Python", "#3572a5"),
   ("Java", "#b07219"), ("HTML", "#e34c26"), ("CSS", "#563d7c"),
   ("SCSS", "#c6538c"), ("Vue", "#4fc08d"), ("Go", "#00add8"),
   ("Rust", "#dea584"), ("PHP", "#4f5d95"), ("Ruby", "#701516"),
   ("Swift", "#fa7343"), ("Kotlin", "#a97bff"), ("Dart", "#00b4ab"),
   ("Shell", "#89e051"), ("Dockerfile", "#384d54")]

/-- `getLanguageColor` (app.js:822-844); an absent language hits the
`'#64748b'` fallback, like any name outside the table. -/
def getLanguageColor (language : Option String) : String :=
  match language with
  | some l => (languageColors.lookup l).getD "#64748b"
  | none => "#64748b"

/-- `createSearchText` (app.js:240-249): the listed fields (name, full
name, description, language, the spread topics, `owner?.login`), with falsy
entries dropped by `.filter(Boolean)`, space-joined and lowercased. -/
def createSearchText (repo : RawRepo) : String :=
  let parts : List (Option String) :=
    [repo.name, repo.full_name, repo.description, repo.language]
      ++ (repo.topics.getD []).map some
      ++ [repo.owner.map Owner.login]
  strLower (String.intercalate " "
    (parts.filterMap fun o =>
      match o with
      | some s => if s = "" then none else some s
      | none => none))

/-! ## Normalization (`processRepositoryData`, app.js:188-235) -/

/-- A normalized repository entry, the element type of the working set.
`id` and `name` hold the raw values unwrapped with neutral defaults; the
validation filter guarantees both are present and truthy on every record
that reaches normalization, so the unwrapping is exact there. `searchScore`
is the transient score slot, absent (`none`) until a search pass assigns
it. -/
structure Repository where
  id : Int
  name : String
  full_name : Option String
  description : String
  stargazers_count : Int
  language : String
  topics : List String
  created_at : Int
  updated_at : Int
  owner : Option Owner
  originalIndex : Nat
  searchText : String
  formattedStars : String
  relativeTime : String
  languageColor : String
  searchScore : Option Int
  deriving DecidableEq, Repr

/-- The `.map` body of `processRepositoryData` (app.js:218-233): spread of
the raw record with defaults applied and computed fields added. The
derived-field helpers are called on the *raw* fields, exactly as in the
source (`this.createSearchText(repo)`, `this.formatNumber(repo.stargazers_count || 0)`,
`this.getRelativeTime(repo.updated_at)`, `this.getLanguageColor(repo.language)`). -/
def normalizeRepo (now : Int) (idx : Nat) (repo : RawRepo) : Repository where
  id := repo.id.getD 0
  name := repo.name.getD ""
  full_name := repo.full_name
  description := (repo.description.getD "")
  stargazers_count := repo.stargazers_count.getD 0
  language := jsOrStr repo.language "Unknown"
  topics := repo.topics.getD []
  created_at := repo.created_at.getD now
  updated_at := repo.updated_at.getD now
  owner := repo.owner
  originalIndex := idx
  searchText := createSearchText repo
  formattedStars := formatNumber (repo.stargazers_count.getD 0)
  relativeTime := getRelativeTime now repo.updated_at
  languageColor := getLanguageColor repo.language
  searchScore := none

/-- The validation predicate `repo.id && repo.name` of the
`.filter(repo => repo && repo.id && repo.name)` line (app.js:217). -/
def keepRepo (r : RawRepo) : Bool :=
  jsTruthyInt r.id && jsTruthyStr r.name

/-- One step of `.filter(repo => repo && repo.id && repo.name)`
(app.js:217): `none` models a null/undefined entry (falsy `repo`). -/
def keepOpt : Option RawRepo → Option RawRepo
  | some r => if keepRepo r then some r else none
  | none => none

/-- `.filter(repo => repo && repo.id && repo.name)` (app.js:217): drops
null entries and records lacking a truthy id or name. -/
def keptRaws (l : List (Option RawRepo)) : List RawRepo :=
  l.filterMap keepOpt

/-- Map with a running counter, modeling the `originalIndex: originalIndex++`
closure inside the `.map` (app.js:228). -/
def mapWithIdx {α β : Type} (f : Nat → α → β) : Nat → List α → List β
  | _, [] => []
  | i, a :: l => f i a :: mapWithIdx f (i + 1) l

/-- `!languageOrder[language]`: the guard of the language-order assignment
(app.js:201); both an absent entry and a stored `0` are falsy. -/
def jsFalsyOrder : Option Nat → Bool
  | none => true
  | some n => n == 0

/-- `languageOrder[language] = languageOrderIndex++`: JS object assignment
(overwrite an existing key, else append, preserving key insertion order). -/
def orderAssign : List (String × Nat) → String → Nat → List (String × Nat)
  | [], k, v => [(k, v)]
  | (k', v') :: rest, k, v =>
    if k' = k then (k, v) :: rest else (k', v') :: orderAssign rest k v

/-- One iteration of the `Object.keys(data).forEach(language => ...)` loop
(app.js:199-209), over the accumulated (flat list, language order, next
order index). -/
def collectObjStep (acc : List (Option RawRepo) × List (String × Nat) × Nat)
    (kv : String × ObjEntryVal) : List (Option RawRepo) × List (String × Nat) × Nat :=
  let (repos, lo, idx) := acc
  let (lo', idx') :=
    if jsFalsyOrder (lo.lookup kv.1) then (orderAssign lo kv.1 idx, idx + 1)
    else (lo, idx)
  match kv.2 with
  | .repos xs => (repos ++ xs, lo', idx')
  | .nonArray => (repos, lo', idx')

/-- The whole key loop of the object branch (app.js:197-210). -/
def collectObj (kvs : List (String × ObjEntryVal)) :
    List (Option RawRepo) × List (String × Nat) × Nat :=
  kvs.foldl collectObjStep ([], [], 0)

/-- The flat `repositories` array right after the array/object branches
(app.js:195-210): the array itself, the flattened object arrays, or empty
for the remaining payloads. -/
def flattenPayload : Payload → List (Option RawRepo)
  | .arr xs => xs
  | .obj kvs => (collectObj kvs).1
  | _ => []

/-- The `languageOrder` object stored into `this.languageOrder`
(app.js:191-213): populated only by the object branch. -/
def payloadLanguageOrder : Payload → List (String × Nat)
  | .obj kvs => (collectObj kvs).2.1
  | _ => []

/-- The comparator `(a, b) => b.stargazers_count - a.stargazers_count` of
the trailing `.sort` (app.js:234), as a boolean preorder. -/
def starsLe (a b : Repository) : Bool :=
  decide (b.stargazers_count ≤ a.stargazers_count)

/-- `.filter(...).map(...).sort(...)` (app.js:216-234): validation filter,
normalization with the running `originalIndex`, then the stable
star-descending sort. Note the sort runs *after* `originalIndex` has been
assigned. -/
def normalizePipeline (now : Int) (l : List (Option RawRepo)) : List Repository :=
  jsSort starsLe (mapWithIdx (normalizeRepo now) 0 (keptRaws l))

/-- `processRepositoryData` (app.js:188-235). `null` has
`typeof null === 'object'`, enters the object branch, and
`Object.keys(null)` throws a `TypeError`; every other non-array non-object
payload leaves `repositories` empty. Returns the normalized list together
with the `languageOrder` side effect stored on `this`. -/
def processRepositoryData (now : Int) (data : Payload) :
    JsResult (List Repository × List (String × Nat)) :=
  match data with
  | .nullV => .thrown
  | d => .ok (normalizePipeline now (flattenPayload d), payloadLanguageOrder d)

/-! ## Search (`performAdvancedSearch`, app.js:577-604) -/

/-- Split a character list at every whitespace character (keeping the empty
chunks between consecutive separators). -/
def splitWsChars : List Char → List (List Char)
  | [] => [[]]
  | c :: cs =>
    let rest := splitWsChars cs
    if c.isWhitespace then [] :: rest
    else
      match rest with
      | [] => [[c]]
      | g :: gs => (c :: g) :: gs

/-- `searchTerm.toLowerCase().split(/\s+/).filter(term => term.length > 0)`
(app.js:580). Splitting at every whitespace character and dropping empties
agrees with the `/\s+/` split composed with the same filter. -/
def searchTermsOf (searchTerm : String) : List String :=
  ((splitWsChars (strLower searchTerm).data).map fun l => String.mk l).filter
    fun t => t.length != 0

/-- `terms.every(term => searchableText.includes(term))` (app.js:588) with
`searchableText = repo.searchText`. -/
def hasAllTerms (terms : List String) (repo : Repository) : Bool :=
  terms.all fun t => strIncludes repo.searchText t

/-- The per-term score increments of the `terms.forEach` body
(app.js:592-598): +10 name, +5 description, +8 topics, +6 language,
+4 owner login (all lowercased substring tests). -/
def termGain (repo : Repository) (login : String) (t : String) : Int :=
  (if strIncludes (strLower repo.name) t then 10 else 0) +
  (if strIncludes (strLower repo.description) t then 5 else 0) +
  (if repo.topics.any fun topic => strIncludes (strLower topic) t then 8 else 0) +
  (if strIncludes (strLower repo.language) t then 6 else 0) +
  (if strIncludes (strLower login) t then 4 else 0)

/-- The score accumulation for one repository (app.js:584-598).
`repo.owner.login` is dereferenced without a guard inside the loop, so a
repository without `owner` throws a `TypeError` as soon as there is at
least one term; with no terms the loop body never runs. -/
def scoreRepo (terms : List String) (repo : Repository) : JsResult Int :=
  match repo.owner with
  | some o => .ok (terms.foldl (fun s t => s + termGain repo o.login t) 0)
  | none => if terms.isEmpty then .ok 0 else .thrown

/-- Total score function agreeing with `scoreRepo` whenever the latter does
not throw (used to state frame results; with an absent owner the login
contribution cannot have been reached). -/
def jsScoreVal (terms : List String) (repo : Repository) : Int :=
  terms.foldl (fun s t => s + termGain repo ((repo.owner.map Owner.login).getD "") t) 0

/-- The `repositories.filter(repo => ...)` pass of `performAdvancedSearch`
(app.js:582-602), evaluated left to right, returning both the retained
list (`score > 0` after the all-terms check) and the working array with
its `repo.searchScore = score` mutations applied. A repository failing the
all-terms check returns early and is left untouched. -/
def searchStep (terms : List String) :
    List Repository → JsResult (List Repository × List Repository)
  | [] => .ok ([], [])
  | r :: rs =>
    if hasAllTerms terms r then
      match scoreRepo terms r with
      | .thrown => .thrown
      | .ok sc =>
        match searchStep terms rs with
        | .thrown => .thrown
        | .ok (kept, upd) =>
          let r' := { r with searchScore := some sc }
          .ok ((if 0 < sc then r' :: kept else kept), r' :: upd)
    else
      match searchStep terms rs with
      | .thrown => .thrown
      | .ok (kept, upd) => .ok (kept, r :: upd)

/-- The comparator `(a, b) => (b.searchScore || 0) - (a.searchScore || 0)`
(app.js:603), as a boolean preorder. -/
def scoreLe (a b : Repository) : Bool :=
  decide (b.searchScore.getD 0 ≤ a.searchScore.getD 0)

/-- `performAdvancedSearch` (app.js:577-604): early return on a falsy
term, then the scoring filter followed by the stable score-descending
sort. -/
def performAdvancedSearch (repositories : List Repository) (searchTerm : String) :
    JsResult (List Repository) :=
  if searchTerm = "" then .ok repositories
  else
    match searchStep (searchTermsOf searchTerm) repositories with
    | .thrown => .thrown
    | .ok (kept, _) => .ok (jsSort scoreLe kept)

/-! ## Sorting (`sortRepositories`, app.js:461-497) -/

/-- The sign-style result of `localeCompare`, modeled at code-point
precision on base-sensitivity-equivalent (lowercased) strings. -/
def strCmp (s t : String) : Int :=
  if strLt s t then -1 else if s = t then 0 else 1

/-- The `switch (sortBy)` comparator of `sortRepositories`
(app.js:464-495). `originalIndex` is always set by normalization, so the
`(a.originalIndex || 0)` guard is the identity here; `localeCompare` with
`{ sensitivity: 'base' }` is case-insensitive comparison, modeled on
lowercased names; date subtraction is subtraction of the parsed timestamp
values. Unlisted keys take the `default` branch: stars descending. -/
def sortCmp (sortBy : String) (a b : Repository) : Int :=
  if sortBy = "stars" then b.stargazers_count - a.stargazers_count
  else if sortBy = "recent-likes" then (a.originalIndex : Int) - (b.originalIndex : Int)
  else if sortBy = "stars-asc" then a.stargazers_count - b.stargazers_count
  else if sortBy = "name" then strCmp (strLower a.name) (strLower b.name)
  else if sortBy = "name-desc" then strCmp (strLower b.name) (strLower a.name)
  else if sortBy = "updated" then b.updated_at - a.updated_at
  else if sortBy = "created" then b.created_at - a.created_at
  else b.stargazers_count - a.stargazers_count

/-- `sortRepositories` (app.js:461-497): stable in-place sort of the
filtered list by the selected comparator, modeled functionally. -/
def sortRepositories (sortBy : String) (l : List Repository) : List Repository :=
  jsSort (fun a b => decide (sortCmp sortBy a b ≤ 0)) l

/-- The language filter of `updateFilteredRepositories` (app.js:448-452):
exact string equality against `repo.language`. -/
def filterByLanguage (selectedLanguage : String) (l : List Repository) :
    List Repository :=
  l.filter fun r => r.language == selectedLanguage

/-! ## Grouping (`groupRepositoriesByLanguage`, app.js:884-914) -/

/-- Insertion into the `grouped` object (app.js:887-893): append to an
existing language key, else add a new key at the end (JS object key
insertion order). -/
def addToGroup : List (String × List Repository) → String → Repository →
    List (String × List Repository)
  | [], lang, r => [(lang, [r])]
  | (k, rs) :: rest, lang, r =>
    if k = lang then (k, rs ++ [r]) :: rest
    else (k, rs) :: addToGroup rest lang r

/-- The grouping loop (app.js:887-893); a falsy language falls back to
`'Other'`. -/
def groupFold (repositories : List Repository) : List (String × List Repository) :=
  repositories.foldl (fun acc r => addToGroup acc (jsOrStr' r.language "Other") r) []

/-- `this.languageOrder[lang] ?? 999` (app.js:903-904). -/
def langOrderOf (languageOrder : List (String × Nat)) (lang : String) : Int :=
  match languageOrder.lookup lang with
  | some n => (n : Int)
  | none => 999

/-- `groupRepositoriesByLanguage` (app.js:884-914): group by language, then
order the groups — `recently` ascending by `languageOrder[lang] ?? 999`,
anything else (the `popular` default) descending by group size. Both sorts
are stable. -/
def groupRepositoriesByLanguage (languageCategory : String)
    (languageOrder : List (String × Nat)) (repositories : List Repository) :
    List (String × List Repository) :=
  let grouped := groupFold repositories
  if languageCategory = "recently" then
    jsSort (fun a b =>
      decide (langOrderOf languageOrder a.1 - langOrderOf languageOrder b.1 ≤ 0)) grouped
  else
    jsSort (fun a b =>
      decide ((b.2.length : Int) - (a.2.length : Int) ≤ 0)) grouped

/-! ## Supporting lemmas -/

theorem charListLt_cons {a b : Char} {as bs : List Char} :
    charListLt (a :: as) (b :: bs) = true ↔
      a < b ∨ (a = b ∧ charListLt as bs = true) := by
  simp [charListLt, Bool.or_eq_true, Bool.and_eq_true, decide_eq_true_iff,
    beq_iff_eq]

theorem charListLt_irrefl (as : List Char) : charListLt as as = false := by
  induction as with
  | nil => rfl
  | cons a as ih =>
    have : ¬ charListLt (a :: as) (a :: as) = true := by
      rw [charListLt_cons]
      rintro (h | ⟨-, h⟩)
      · exact absurd h (lt_irrefl a)
      · rw [ih] at h
        exact Bool.false_ne_true h
    simpa using this

theorem charListLt_trans {as bs cs : List Char} (h1 : charListLt as bs = true)
    (h2 : charListLt bs cs = true) : charListLt as cs = true := by
  induction as generalizing bs cs with
  | nil =>
    cases bs with
    | nil => exact absurd h1 (by simp [charListLt])
    | cons b bs =>
      cases cs with
      | nil => exact absurd h2 (by simp [charListLt])
      | cons c cs => simp [charListLt]
  | cons a as ih =>
    cases bs with
    | nil => exact absurd h1 (by simp [charListLt])
    | cons b bs =>
      cases cs with
      | nil => exact absurd h2 (by simp [charListLt])
      | cons c cs =>
        rw [charListLt_cons] at h1 h2 ⊢
        rcases h1 with h1 | ⟨rfl, h1⟩
        · rcases h2 with h2 | ⟨rfl, h2⟩
          · exact Or.inl (lt_trans h1 h2)
          · exact Or.inl h1
        · rcases h2 with h2 | ⟨rfl, h2⟩
          · exact Or.inl h2
          · exact Or.inr ⟨rfl, ih h1 h2⟩

theorem charListLt_trichotomy (as bs : List Char) :
    charListLt as bs = true ∨ as = bs ∨ charListLt bs as = true := by
  induction as generalizing bs with
  | nil =>
    cases bs with
    | nil => exact Or.inr (Or.inl rfl)
    | cons b bs => exact Or.inl (by simp [charListLt])
  | cons a as ih =>
    cases bs with
    | nil => exact Or.inr (Or.inr (by simp [charListLt]))
    | cons b bs =>
      rcases lt_trichotomy a b with h | rfl | h
      · exact Or.inl (charListLt_cons.mpr (Or.inl h))
      · rcases ih bs with h' | rfl | h'
        · exact Or.inl (charListLt_cons.mpr (Or.inr ⟨rfl, h'⟩))
        · exact Or.inr (Or.inl rfl)
        · exact Or.inr (Or.inr (charListLt_cons.mpr (Or.inr ⟨rfl, h'⟩)))
      · exact Or.inr (Or.inr (charListLt_cons.mpr (Or.inl h)))

theorem charListLt_asymm {as bs : List Char} (h : charListLt as bs = true) :
    charListLt bs as = false := by
  by_contra h'
  have h'' : charListLt bs as = true := by
    cases hb : charListLt bs as
    · exact absurd hb h'
    · rfl
  have := charListLt_trans h h''
  rw [charListLt_irrefl] at this
  exact Bool.false_ne_true this

theorem strLt_trans {s t u : String} (h1 : strLt s t = true)
    (h2 : strLt t u = true) : strLt s u = true :=
  charListLt_trans h1 h2

theorem strLt_trichotomy (s t : String) :
    strLt s t = true ∨ s = t ∨ strLt t s = true := by
  rcases charListLt_trichotomy s.data t.data with h | h | h
  · exact Or.inl h
  · exact Or.inr (Or.inl (congrArg String.mk (by cases s; cases t; simpa using h)))
  · exact Or.inr (Or.inr h)

theorem strLt_irrefl (s : String) : strLt s s = false :=
  charListLt_irrefl s.data

theorem strLt_asymm {s t : String} (h : strLt s t = true) :
    strLt t s = false :=
  charListLt_asymm h

/-- `strCmp s t ≤ 0` means `s` is at or before `t`. -/
theorem strCmp_nonpos_iff {s t : String} :
    strCmp s t ≤ 0 ↔ strLt s t = true ∨ s = t := by
  unfold strCmp
  by_cases h1 : strLt s t = true
  · simp [h1]
  · by_cases h2 : s = t
    · subst h2
      simp [strLt_irrefl s]
    · have h3 : strLt s t = false := by
        cases hb : strLt s t
        · rfl
        · exact absurd hb h1
      simp [h3, h2]

theorem mem_keptRaws {l : List (Option RawRepo)} {r : RawRepo} :
    r ∈ keptRaws l ↔ some r ∈ l ∧ keepRepo r = true := by
  unfold keptRaws
  rw [List.mem_filterMap]
  constructor
  · rintro ⟨o, ho, heq⟩
    cases o with
    | none => simp [keepOpt] at heq
    | some r' =>
      by_cases hk : keepRepo r' = true
      · rw [keepOpt, if_pos hk] at heq
        obtain rfl : r' = r := by simpa using heq
        exact ⟨ho, hk⟩
      · rw [keepOpt, if_neg hk] at heq
        simp at heq
  · rintro ⟨hmem, hk⟩
    exact ⟨some r, hmem, by rw [keepOpt, if_pos hk]⟩

theorem normalizeRepo_id (now : Int) (idx : Nat) (r : RawRepo) :
    (normalizeRepo now idx r).id = r.id.getD 0 := rfl

theorem normalizeRepo_name (now : Int) (idx : Nat) (r : RawRepo) :
    (normalizeRepo now idx r).name = r.name.getD "" := rfl

theorem normalizeRepo_originalIndex (now : Int) (idx : Nat) (r : RawRepo) :
    (normalizeRepo now idx r).originalIndex = idx := rfl

/-- A record passing the validation filter normalizes to an entry with a
truthy id and a non-empty name. -/
theorem keepRepo_truthy {now : Int} {idx : Nat} {r : RawRepo}
    (h : keepRepo r = true) :
    (normalizeRepo now idx r).id ≠ 0 ∧ (normalizeRepo now idx r).name ≠ "" := by
  unfold keepRepo at h
  rw [Bool.and_eq_true] at h
  obtain ⟨hid, hname⟩ := h
  constructor
  · rw [normalizeRepo_id]
    cases hoid : r.id with
    | none => rw [hoid] at hid; simp [jsTruthyInt] at hid
    | some n =>
      rw [hoid] at hid
      simp only [jsTruthyInt, bne_iff_ne] at hid
      simpa using hid
  · rw [normalizeRepo_name]
    cases hon : r.name with
    | none => rw [hon] at hname; simp [jsTruthyStr] at hname
    | some s =>
      rw [hon] at hname
      simp only [jsTruthyStr, bne_iff_ne] at hname
      simpa using hname

/-- A record failing the validation filter normalizes (at any index) to an
entry with an untruthy id or an empty name. -/
theorem not_keepRepo_untruthy {now : Int} {idx : Nat} {r : RawRepo}
    (h : keepRepo r = false) :
    (normalizeRepo now idx r).id = 0 ∨ (normalizeRepo now idx r).name = "" := by
  unfold keepRepo at h
  rw [Bool.and_eq_false_iff] at h
  rcases h with h | h
  · left
    rw [normalizeRepo_id]
    cases hoid : r.id with
    | none => rfl
    | some n =>
      rw [hoid] at h
      simp only [jsTruthyInt, bne_eq_false_iff_eq] at h
      simpa using h
  · right
    rw [normalizeRepo_name]
    cases hon : r.name with
    | none => rfl
    | some s =>
      rw [hon] at h
      simp only [jsTruthyStr, bne_eq_false_iff_eq] at h
      simpa using h

theorem mem_mapWithIdx {α β : Type} {f : Nat → α → β} {k : Nat} {l : List α}
    {b : β} (h : b ∈ mapWithIdx f k l) : ∃ i a, a ∈ l ∧ b = f i a := by
  induction l generalizing k with
  | nil => simp [mapWithIdx] at h
  | cons a l ih =>
    rcases List.mem_cons.mp h with rfl | h
    · exact ⟨k, a, by simp⟩
    · obtain ⟨i, a', ha', rfl⟩ := ih h
      exact ⟨i, a', by simp [ha']⟩

theorem mapWithIdx_mem_of_mem {α β : Type} {f : Nat → α → β} {l : List α}
    {a : α} (h : a ∈ l) (k : Nat) : ∃ i, f i a ∈ mapWithIdx f k l := by
  induction l generalizing k with
  | nil => simp at h
  | cons x l ih =>
    rcases List.mem_cons.mp h with rfl | h
    · exact ⟨k, by simp [mapWithIdx]⟩
    · obtain ⟨i, hi⟩ := ih h (k + 1)
      exact ⟨i, List.mem_cons_of_mem _ hi⟩

theorem mapWithIdx_idx_ge {now : Int} {k : Nat} {l : List RawRepo}
    {rep : Repository} (h : rep ∈ mapWithIdx (normalizeRepo now) k l) :
    k ≤ rep.originalIndex := by
  induction l generalizing k with
  | nil => simp [mapWithIdx] at h
  | cons a l ih =>
    rcases List.mem_cons.mp h with rfl | h
    · rw [normalizeRepo_originalIndex]
    · exact Nat.le_of_succ_le (ih h)

/-- Successive normalization indices are strictly increasing along the
mapped list. -/
theorem mapWithIdx_idx_pairwise (now : Int) (k : Nat) (l : List RawRepo) :
    (mapWithIdx (normalizeRepo now) k l).Pairwise
      (fun a b => a.originalIndex < b.originalIndex) := by
  induction l generalizing k with
  | nil => exact List.Pairwise.nil
  | cons a l ih =>
    refine List.Pairwise.cons ?_ (ih (k + 1))
    intro rep hrep
    rw [normalizeRepo_originalIndex]
    exact Nat.lt_of_succ_le (mapWithIdx_idx_ge hrep)

theorem starsLe_total (a b : Repository) :
    starsLe a b = true ∨ starsLe b a = true := by
  unfold starsLe
  rcases le_total b.stargazers_count a.stargazers_count with h | h
  · exact Or.inl (by simpa using h)
  · exact Or.inr (by simpa using h)

theorem starsLe_trans (a b c : Repository) (h1 : starsLe a b = true)
    (h2 : starsLe b c = true) : starsLe a c = true := by
  unfold starsLe at h1 h2 ⊢
  simp only [decide_eq_true_iff] at h1 h2 ⊢
  exact le_trans h2 h1

/-- Two lists with the same elements, both strictly sorted by
`originalIndex`, are equal. -/
theorem eq_of_perm_of_idx_sorted {l₁ l₂ : List Repository} (p : l₁ ~ l₂)
    (h₁ : l₁.Pairwise (fun a b => a.originalIndex < b.originalIndex))
    (h₂ : l₂.Pairwise (fun a b => a.originalIndex < b.originalIndex)) :
    l₁ = l₂ := by
  haveI : IsAntisymm Repository (fun a b => a.originalIndex < b.originalIndex) :=
    ⟨fun a b h1 h2 => absurd h2 (Nat.lt_asymm h1)⟩
  exact List.eq_of_perm_of_sorted p h₁ h₂

/-! ### Search-pass specification functions

`searchKept`/`searchMut` are derived descriptions of the two components of
`searchStep`'s result (the retained list and the mutated working array) in
the throw-free cases; `searchStep` itself remains the source translation. -/

def searchKept (terms : List String) : List Repository → List Repository
  | [] => []
  | r :: rs =>
    if hasAllTerms terms r then
      if 0 < jsScoreVal terms r then
        { r with searchScore := some (jsScoreVal terms r) } :: searchKept terms rs
      else searchKept terms rs
    else searchKept terms rs

def searchMut (terms : List String) : List Repository → List Repository
  | [] => []
  | r :: rs =>
    (if hasAllTerms terms r then { r with searchScore := some (jsScoreVal terms r) }
     else r) :: searchMut terms rs

theorem scoreRepo_ok_val {terms : List String} {r : Repository} {sc : Int}
    (h : scoreRepo terms r = .ok sc) : sc = jsScoreVal terms r := by
  unfold scoreRepo at h
  cases ho : r.owner with
  | some o =>
    rw [ho] at h
    obtain rfl : (terms.foldl (fun s t => s + termGain r o.login t) 0) = sc := by
      simpa using h
    unfold jsScoreVal
    rw [ho]
    rfl
  | none =>
    rw [ho] at h
    by_cases he : terms.isEmpty
    · rw [if_pos he] at h
      obtain rfl : (0 : Int) = sc := by simpa using h
      obtain rfl : terms = [] := List.isEmpty_iff.mp he
      rfl
    · rw [if_neg he] at h
      simp at h

theorem searchStep_ok_eq {terms : List String} {l kept upd : List Repository}
    (h : searchStep terms l = .ok (kept, upd)) :
    kept = searchKept terms l ∧ upd = searchMut terms l := by
  induction l generalizing kept upd with
  | nil =>
    unfold searchStep at h
    injection h with h'
    injection h' with h1 h2
    exact ⟨h1.symm, h2.symm⟩
  | cons r rs ih =>
    unfold searchStep at h
    by_cases hA : hasAllTerms terms r = true
    · rw [if_pos hA] at h
      cases hsc : scoreRepo terms r with
      | thrown => rw [hsc] at h; exact absurd h (by simp)
      | ok sc =>
        rw [hsc] at h
        cases hs : searchStep terms rs with
        | thrown => rw [hs] at h; exact absurd h (by simp)
        | ok p =>
          obtain ⟨kept', upd'⟩ := p
          rw [hs] at h
          obtain ⟨hk, hu⟩ := ih hs
          have hsv : sc = jsScoreVal terms r := scoreRepo_ok_val hsc
          subst hsv
          injection h with h'
          injection h' with h1 h2
          subst hk hu
          refine ⟨?_, ?_⟩
          · rw [← h1]
            simp [searchKept, hA]
          · rw [← h2]
            simp [searchMut, hA]
    · rw [if_neg hA] at h
      cases hs : searchStep terms rs with
      | thrown => rw [hs] at h; exact absurd h (by simp)
      | ok p =>
        obtain ⟨kept', upd'⟩ := p
        rw [hs] at h
        obtain ⟨hk, hu⟩ := ih hs
        injection h with h'
        injection h' with h1 h2
        subst hk hu
        have hA' : hasAllTerms terms r = false := by
          cases hb : hasAllTerms terms r
          · rfl
          · exact absurd hb hA
        refine ⟨?_, ?_⟩
        · rw [← h1]
          simp [searchKept, hA']
        · rw [← h2]
          simp [searchMut, hA']

/-- With every owner present the search pass cannot throw, and computes the
retained and mutated lists described by `searchKept`/`searchMut`. -/
theorem searchStep_total {terms : List String} {l : List Repository}
    (h : ∀ r ∈ l, r.owner.isSome = true) :
    searchStep terms l = .ok (searchKept terms l, searchMut terms l) := by
  induction l with
  | nil => rfl
  | cons r rs ih =>
    obtain ⟨o, ho⟩ := Option.isSome_iff_exists.mp (h r (by simp))
    have hsc : scoreRepo terms r = .ok (jsScoreVal terms r) := by
      unfold scoreRepo jsScoreVal
      rw [ho]
      rfl
    have hrest := ih fun x hx => h x (List.mem_cons_of_mem r hx)
    unfold searchStep
    by_cases hA : hasAllTerms terms r = true
    · rw [if_pos hA, hsc, hrest]
      simp [searchKept, searchMut, hA]
    · rw [if_neg hA, hrest]
      have hA' : hasAllTerms terms r = false := by
        cases hb : hasAllTerms terms r
        · rfl
        · exact absurd hb hA
      simp [searchKept, searchMut, hA']

/-- Membership in the retained list of a search pass. -/
theorem mem_searchKept {terms : List String} {l : List Repository}
    {x : Repository} :
    x ∈ searchKept terms l ↔
      ∃ r ∈ l, hasAllTerms terms r = true ∧ 0 < jsScoreVal terms r ∧
        x = { r with searchScore := some (jsScoreVal terms r) } := by
  induction l with
  | nil => simp [searchKept]
  | cons r rs ih =>
    unfold searchKept
    by_cases hA : hasAllTerms terms r = true
    · rw [if_pos hA]
      by_cases hpos : 0 < jsScoreVal terms r
      · rw [if_pos hpos]
        constructor
        · intro hx
          rcases List.mem_cons.mp hx with rfl | hx
          · exact ⟨r, by simp, hA, hpos, rfl⟩
          · obtain ⟨r', hr', h1, h2, h3⟩ := ih.mp hx
            exact ⟨r', List.mem_cons_of_mem r hr', h1, h2, h3⟩
        · rintro ⟨r', hr', h1, h2, h3⟩
          rcases List.mem_cons.mp hr' with rfl | hr'
          · subst h3
            exact List.mem_cons_self _ _
          · exact List.mem_cons_of_mem _ (ih.mpr ⟨r', hr', h1, h2, h3⟩)
      · rw [if_neg hpos]
        constructor
        · intro hx
          obtain ⟨r', hr', h1, h2, h3⟩ := ih.mp hx
          exact ⟨r', List.mem_cons_of_mem r hr', h1, h2, h3⟩
        · rintro ⟨r', hr', h1, h2, h3⟩
          rcases List.mem_cons.mp hr' with rfl | hr'
          · exact absurd h2 hpos
          · exact ih.mpr ⟨r', hr', h1, h2, h3⟩
    · rw [if_neg hA]
      constructor
      · intro hx
        obtain ⟨r', hr', h1, h2, h3⟩ := ih.mp hx
        exact ⟨r', List.mem_cons_of_mem r hr', h1, h2, h3⟩
      · rintro ⟨r', hr', h1, h2, h3⟩
        rcases List.mem_cons.mp hr' with rfl | hr'
        · exact absurd h1 hA
        · exact ih.mpr ⟨r', hr', h1, h2, h3⟩

theorem scoreLe_total (a b : Repository) :
    scoreLe a b = true ∨ scoreLe b a = true := by
  unfold scoreLe
  rcases le_total (b.searchScore.getD 0) (a.searchScore.getD 0) with h | h
  · exact Or.inl (by simpa using h)
  · exact Or.inr (by simpa using h)

theorem scoreLe_trans (a b c : Repository) (h1 : scoreLe a b = true)
    (h2 : scoreLe b c = true) : scoreLe a c = true := by
  unfold scoreLe at h1 h2 ⊢
  simp only [decide_eq_true_iff] at h1 h2 ⊢
  exact le_trans h2 h1

theorem termGain_nonneg (repo : Repository) (login t : String) :
    0 ≤ termGain repo login t := by
  unfold termGain
  split_ifs <;> omega

theorem gainFoldl_init_le (g : String → Int) (hg : ∀ t, 0 ≤ g t) :
    ∀ (ts : List String) (init : Int),
      init ≤ ts.foldl (fun s t => s + g t) init := by
  intro ts
  induction ts with
  | nil => intro init; exact le_refl init
  | cons t ts ih =>
    intro init
    calc init ≤ init + g t := by have := hg t; omega
    _ ≤ ts.foldl (fun s t => s + g t) (init + g t) := ih (init + g t)

theorem gainFoldl_pos (g : String → Int) (hg : ∀ t, 0 ≤ g t)
    {ts : List String} {t0 : String} (ht : t0 ∈ ts) (hpos : 0 < g t0) :
    ∀ init : Int, init < ts.foldl (fun s t => s + g t) init := by
  induction ts with
  | nil => simp at ht
  | cons t ts ih =>
    intro init
    rcases List.mem_cons.mp ht with rfl | ht
    · calc init < init + g t0 := by omega
      _ ≤ ts.foldl (fun s t => s + g t) (init + g t0) :=
        gainFoldl_init_le g hg ts (init + g t0)
    · calc init ≤ init + g t := by have := hg t; omega
      _ < ts.foldl (fun s t => s + g t) (init + g t) := ih ht (init + g t)

theorem lookup_mem {β : Type} {a : String} {l : List (String × β)} {b : β}
    (h : List.lookup a l = some b) : (a, b) ∈ l := by
  induction l with
  | nil => simp [List.lookup] at h
  | cons kv es ih =>
    obtain ⟨k, v⟩ := kv
    rw [List.lookup_cons] at h
    cases hk : (a == k) with
    | true =>
      simp only [hk] at h
      obtain rfl : v = b := by simpa using h
      obtain rfl : a = k := by simpa using hk
      exact List.mem_cons_self _ _
    | false =>
      simp only [hk] at h
      exact List.mem_cons_of_mem _ (ih h)

/-- The successful results of `processRepositoryData` are exactly the
normalization pipeline applied to the flattened payload. -/
theorem processRepositoryData_ok {now : Int} {data : Payload}
    {out : List Repository} {lo : List (String × Nat)}
    (h : processRepositoryData now data = .ok (out, lo)) :
    out = normalizePipeline now (flattenPayload data) ∧
      lo = payloadLanguageOrder data := by
  cases data
  case nullV => exact absurd h (by simp [processRepositoryData])
  all_goals
    unfold processRepositoryData at h
    injection h with h'
    injection h' with h1 h2
    exact ⟨h1.symm, h2.symm⟩

/-- Sortedness of `jsSort` under a comparator of the form
`cmp a b = key b - key a` (descending by `key`). -/
theorem jsSort_pairwise_of_cmp {α : Type} (cmp : α → α → Int)
    (key : α → Int) (hkey : ∀ a b, cmp a b = key b - key a)
    (l : List α) :
    (jsSort (fun a b => decide (cmp a b ≤ 0)) l).Pairwise
      (fun a b => key b ≤ key a) := by
  have htot : ∀ a b, decide (cmp a b ≤ 0) = true ∨ decide (cmp b a ≤ 0) = true := by
    intro a b
    rw [hkey, hkey]
    simp only [decide_eq_true_iff]
    omega
  have htrans : ∀ a b c, decide (cmp a b ≤ 0) = true →
      decide (cmp b c ≤ 0) = true → decide (cmp a c ≤ 0) = true := by
    intro a b c h1 h2
    rw [hkey] at h1 h2 ⊢
    simp only [decide_eq_true_iff] at h1 h2 ⊢
    omega
  refine (jsSort_sorted htot htrans l).imp ?_
  intro a b h
  rw [hkey] at h
  simp only [decide_eq_true_iff] at h
  omega

/-- The search-pass retained list commutes with the language filter: the
language field is untouched by the score annotation. -/
theorem searchKept_filterByLanguage (terms : List String) (sel : String)
    (l : List Repository) :
    searchKept terms (filterByLanguage sel l) =
      filterByLanguage sel (searchKept terms l) := by
  induction l with
  | nil => rfl
  | cons r rs ih =>
    unfold filterByLanguage at ih ⊢
    by_cases hsel : (r.language == sel) = true
    · by_cases hA : hasAllTerms terms r = true
      · by_cases hpos : 0 < jsScoreVal terms r
        · simp [List.filter_cons, hsel, searchKept, hA, hpos, ih]
        · simp [List.filter_cons, hsel, searchKept, hA, hpos, ih]
      · simp [List.filter_cons, hsel, searchKept, hA, ih]
    · have hsel' : (r.language == sel) = false := by
        cases hb : r.language == sel
        · rfl
        · exact absurd hb hsel
      by_cases hA : hasAllTerms terms r = true
      · by_cases hpos : 0 < jsScoreVal terms r
        · simp [List.filter_cons, hsel', searchKept, hA, hpos, ih]
        · simp [List.filter_cons, hsel', searchKept, hA, hpos, ih]
      · simp [List.filter_cons, hsel', searchKept, hA, ih]

/-- The mutated working set is a positional map of the input: only
`searchScore` changes, and only on entries passing the all-terms check. -/
theorem searchMut_eq_map (terms : List String) (l : List Repository) :
    searchMut terms l = l.map fun r =>
      if hasAllTerms terms r then
        { r with searchScore := some (jsScoreVal terms r) }
      else r := by
  induction l with
  | nil => rfl
  | cons r rs ih => simp [searchMut, ih]

/-! ## Claims -/

/-- C1. Normalization drop rule: every repository produced by
`processRepositoryData` has a truthy id and a non-empty name; every raw
record with both a truthy id and a truthy name appears in the output (as
its normalization at some index), and every raw record lacking one is
absent from the output at every index. -/
theorem c1_normalization_drop (now : Int) (data : Payload)
    (out : List Repository) (lo : List (String × Nat))
    (h : processRepositoryData now data = .ok (out, lo)) :
    (∀ rep ∈ out, rep.id ≠ 0 ∧ rep.name ≠ "")
    ∧ (∀ r ∈ keptRaws (flattenPayload data), ∃ i, normalizeRepo now i r ∈ out)
    ∧ (∀ r : RawRepo, some r ∈ flattenPayload data → keepRepo r = false →
        ∀ i, normalizeRepo now i r ∉ out) := by
  obtain ⟨h1, -⟩ := processRepositoryData_ok h
  subst h1
  unfold normalizePipeline
  have hperm :
      jsSort starsLe (mapWithIdx (normalizeRepo now) 0 (keptRaws (flattenPayload data)))
        ~ mapWithIdx (normalizeRepo now) 0 (keptRaws (flattenPayload data)) :=
    jsSort_perm _ _
  have htruthy : ∀ rep ∈ jsSort starsLe
      (mapWithIdx (normalizeRepo now) 0 (keptRaws (flattenPayload data))),
      rep.id ≠ 0 ∧ rep.name ≠ "" := by
    intro rep hrep
    obtain ⟨i, r, hr, rfl⟩ := mem_mapWithIdx (hperm.mem_iff.mp hrep)
    exact keepRepo_truthy (mem_keptRaws.mp hr).2
  refine ⟨htruthy, ?_, ?_⟩
  · intro r hr
    obtain ⟨i, hi⟩ := mapWithIdx_mem_of_mem hr 0
    exact ⟨i, hperm.mem_iff.mpr hi⟩
  · intro r hmem hkeep i hin
    obtain ⟨hid, hname⟩ := htruthy _ hin
    rcases @not_keepRepo_untruthy now i r hkeep with h0 | h0
    · exact hid h0
    · exact hname h0

def c1wGood : RawRepo :=
  ⟨some 7, some "kept", none, none, some 3, some "Go", none, none, none, none⟩

def c1wNoId : RawRepo :=
  ⟨none, some "dropped", none, none, some 9, none, none, none, none, none⟩

def c1wPayload : Payload := .arr [some c1wGood, some c1wNoId, none]

def c1wOut : List Repository := normalizePipeline 0 (flattenPayload c1wPayload)

/-- C1, witness: on a concrete payload the kept record appears, the
id-less record is dropped, and every output entry is truthy. -/
theorem c1_normalization_drop_witness :
    (∀ rep ∈ c1wOut, rep.id ≠ 0 ∧ rep.name ≠ "")
    ∧ (∃ i, normalizeRepo 0 i c1wGood ∈ c1wOut)
    ∧ (∀ i, normalizeRepo 0 i c1wNoId ∉ c1wOut) := by
  have h := c1_normalization_drop 0 c1wPayload c1wOut [] rfl
  exact ⟨h.1, h.2.1 c1wGood (by decide), h.2.2 c1wNoId (by decide) (by decide)⟩

def c2Raw1 : RawRepo :=
  ⟨some 1, some "first", none, none, some 5, none, none, none, none, none⟩

def c2Raw2 : RawRepo :=
  ⟨some 2, some "second", none, none, some 50, none, none, none, none, none⟩

def c2Payload : Payload := .arr [some c2Raw1, some c2Raw2]

def c2Out : List Repository := normalizePipeline 0 (flattenPayload c2Payload)

/-- C2, counterexample. In the source, `.sort` runs *after* the `.map` that
assigns `originalIndex`, so `originalIndex` records the pre-sort (source)
position, not the star-sorted position. Loading two records with stars
`[5, 50]` gives an output in star order `[50, 5]`, while ascending
`originalIndex` ('recent-likes') recovers `[5, 50]` — the two orders do
not coincide, refuting the claim that the pre-sort happens before
`originalIndex` is assigned. -/
theorem c2_counterexample :
    processRepositoryData 0 c2Payload = .ok (c2Out, [])
    ∧ c2Out.map Repository.stargazers_count = [50, 5]
    ∧ (sortRepositories "recent-likes" c2Out).map Repository.stargazers_count
        = [5, 50]
    ∧ sortRepositories "recent-likes" c2Out ≠ c2Out := by
  refine ⟨rfl, by decide, by decide, by decide⟩

/-- C2, amended: the normalized entries are sorted once, descending by
`stargazers_count`, *after* `originalIndex` is assigned — so the list
returned by `processRepositoryData` is in descending star order, while
sorting it by 'recent-likes' (ascending `originalIndex`) recovers the
normalization (source) order, not the star order. -/
theorem c2_amended (now : Int) (data : Payload) (out : List Repository)
    (lo : List (String × Nat))
    (h : processRepositoryData now data = .ok (out, lo)) :
    out.Pairwise (fun a b => b.stargazers_count ≤ a.stargazers_count)
    ∧ sortRepositories "recent-likes" out =
        mapWithIdx (normalizeRepo now) 0 (keptRaws (flattenPayload data)) := by
  obtain ⟨h1, -⟩ := processRepositoryData_ok h
  subst h1
  unfold normalizePipeline
  constructor
  · refine (jsSort_sorted starsLe_total starsLe_trans _).imp ?_
    intro a b hle
    unfold starsLe at hle
    simpa using hle
  · set A := mapWithIdx (normalizeRepo now) 0 (keptRaws (flattenPayload data)) with hA
    set L := sortRepositories "recent-likes" (jsSort starsLe A) with hL
    have hcmp : ∀ a b : Repository, sortCmp "recent-likes" a b =
        (-(b.originalIndex : Int)) - (-(a.originalIndex : Int)) := by
      intro a b
      simp [sortCmp]
      omega
    have hperm : L ~ A := (jsSort_perm _ _).trans (jsSort_perm _ _)
    have hAstrict : A.Pairwise (fun a b => a.originalIndex < b.originalIndex) :=
      mapWithIdx_idx_pairwise now 0 _
    have hLle : L.Pairwise
        (fun a b => a.originalIndex ≤ b.originalIndex) := by
      refine (jsSort_pairwise_of_cmp (sortCmp "recent-likes")
        (fun r => -(r.originalIndex : Int)) hcmp _).imp ?_
      intro a b hab
      omega
    have hnodupA : (A.map Repository.originalIndex).Nodup :=
      hAstrict.map Repository.originalIndex fun a b hab => Nat.ne_of_lt hab
    have hnodupL : (L.map Repository.originalIndex).Nodup :=
      ((hperm.map Repository.originalIndex).nodup_iff).mpr hnodupA
    have hLne : L.Pairwise
        (fun a b => a.originalIndex ≠ b.originalIndex) :=
      List.pairwise_map.mp hnodupL
    have hLstrict : L.Pairwise
        (fun a b => a.originalIndex < b.originalIndex) :=
      (hLle.and hLne).imp fun hab => Nat.lt_of_le_of_ne hab.1 hab.2
    exact eq_of_perm_of_idx_sorted hperm hLstrict hAstrict

/-- C2, witness for the amended theorem at a concrete payload. -/
theorem c2_amended_witness :
    c2Out.Pairwise (fun a b => b.stargazers_count ≤ a.stargazers_count)
    ∧ sortRepositories "recent-likes" c2Out =
        mapWithIdx (normalizeRepo 0) 0 (keptRaws (flattenPayload c2Payload)) :=
  c2_amended 0 c2Payload c2Out [] rfl

/-- C5, counterexample. `null` is neither an array nor (semantically) an
object, yet `typeof null === 'object'` routes it into the object branch
where `Object.keys(null)` throws a `TypeError`: `processRepositoryData`
throws instead of returning an empty list. -/
theorem c5_counterexample :
    processRepositoryData 0 Payload.nullV = .thrown
    ∧ processRepositoryData 0 Payload.nullV ≠ .ok ([], []) := by
  exact ⟨rfl, by decide⟩

/-- C5, amended: every non-array non-object payload *other than `null`*
(strings, numbers, booleans, `undefined`) yields an empty result without
throwing; `null` alone, being `typeof 'object'`, reaches `Object.keys`
and throws. -/
theorem c5_amended (now : Int) :
    (∀ s, processRepositoryData now (.str s) = .ok ([], []))
    ∧ (∀ n, processRepositoryData now (.num n) = .ok ([], []))
    ∧ (∀ b, processRepositoryData now (.boolV b) = .ok ([], []))
    ∧ processRepositoryData now .undef = .ok ([], [])
    ∧ processRepositoryData now .nullV = .thrown :=
  ⟨fun _ => rfl, fun _ => rfl, fun _ => rfl, rfl, rfl⟩

def c10Raw : RawRepo :=
  ⟨some 1, some "alpha", none, none, some 5, none, none, none, none, none⟩

def c10Payload : Payload := .arr [some c10Raw]

def c10Out : List Repository := normalizePipeline 0 (flattenPayload c10Payload)

/-- C10. Normalization requires only a truthy id and name, so a repository
without an `owner` field survives it; searching for a term contained in its
`searchText` then reaches the unguarded `repo.owner.login` in the scoring
loop and throws instead of returning a result. -/
theorem c10_owner_throw :
    processRepositoryData 0 c10Payload = .ok (c10Out, [])
    ∧ c10Out.all (fun rep => rep.owner == none) = true
    ∧ c10Out.all (fun rep => hasAllTerms (searchTermsOf "alpha") rep) = true
    ∧ searchTermsOf "alpha" ≠ []
    ∧ performAdvancedSearch c10Out "alpha" = .thrown := by
  exact ⟨rfl, by decide, by decide, by decide, by decide⟩

/-- C3. Search AND semantics and result order: on every successful search
with a non-empty term, (i) every returned repository contains every
lowercased whitespace-separated term as a substring of its `searchText`;
(ii) the result is in descending `searchScore` order; (iii) entries of any
equal score keep the relative order they have in the retained (input-order)
list `searchKept`. -/
theorem c3_search_semantics (l : List Repository) (searchTerm : String)
    (out : List Repository) (hne : searchTerm ≠ "")
    (h : performAdvancedSearch l searchTerm = .ok out) :
    (∀ rep ∈ out, ∀ t ∈ searchTermsOf searchTerm,
        strIncludes rep.searchText t = true)
    ∧ out.Pairwise (fun a b => b.searchScore.getD 0 ≤ a.searchScore.getD 0)
    ∧ ∀ s : Int,
        out.filter (fun rep => rep.searchScore.getD 0 == s) =
          (searchKept (searchTermsOf searchTerm) l).filter
            (fun rep => rep.searchScore.getD 0 == s) := by
  unfold performAdvancedSearch at h
  rw [if_neg hne] at h
  cases hs : searchStep (searchTermsOf searchTerm) l with
  | thrown => rw [hs] at h; exact absurd h (by simp)
  | ok p =>
    obtain ⟨kept, upd⟩ := p
    rw [hs] at h
    obtain rfl : jsSort scoreLe kept = out := by simpa using h
    obtain ⟨rfl, -⟩ := searchStep_ok_eq hs
    refine ⟨?_, ?_, ?_⟩
    · intro rep hrep t ht
      obtain ⟨r, -, hA, -, rfl⟩ :=
        mem_searchKept.mp ((jsSort_perm _ _).mem_iff.mp hrep)
      exact List.all_eq_true.mp hA t ht
    · refine (jsSort_sorted scoreLe_total scoreLe_trans _).imp ?_
      intro a b hab
      unfold scoreLe at hab
      simpa using hab
    · intro s
      rw [filter_jsSort scoreLe_total scoreLe_trans]
      refine jsSort_of_sorted (List.pairwise_of_forall_mem_list ?_)
      intro x hx y hy
      have px := List.of_mem_filter hx
      have py := List.of_mem_filter hy
      unfold scoreLe
      have hxs : x.searchScore.getD 0 = s := by simpa using px
      have hys : y.searchScore.getD 0 = s := by simpa using py
      rw [hxs, hys]
      simp

def c3wR1 : Repository :=
  { id := 1, name := "apple", full_name := none, description := "",
    stargazers_count := 1, language := "Go", topics := [], created_at := 0,
    updated_at := 0, owner := some ⟨"bob"⟩, originalIndex := 0,
    searchText := "apple go bob", formattedStars := "1",
    relativeTime := "Just now", languageColor := "#00add8",
    searchScore := none }

def c3wR2 : Repository :=
  { id := 2, name := "grape", full_name := none, description := "apple pie",
    stargazers_count := 2, language := "Go", topics := [], created_at := 0,
    updated_at := 0, owner := some ⟨"eve"⟩, originalIndex := 1,
    searchText := "grape apple pie go eve", formattedStars := "2",
    relativeTime := "Just now", languageColor := "#00add8",
    searchScore := none }

def c3wOut : List Repository :=
  match performAdvancedSearch [c3wR1, c3wR2] "apple" with
  | .ok o => o
  | .thrown => []

/-- C3, witness at a concrete two-repository search. -/
theorem c3_search_semantics_witness :
    (∀ rep ∈ c3wOut, ∀ t ∈ searchTermsOf "apple",
        strIncludes rep.searchText t = true)
    ∧ c3wOut.Pairwise (fun a b => b.searchScore.getD 0 ≤ a.searchScore.getD 0)
    ∧ ∀ s : Int,
        c3wOut.filter (fun rep => rep.searchScore.getD 0 == s) =
          (searchKept (searchTermsOf "apple") [c3wR1, c3wR2]).filter
            (fun rep => rep.searchScore.getD 0 == s) :=
  c3_search_semantics [c3wR1, c3wR2] "apple" c3wOut (by decide) (by decide)

theorem strCmpLe_total (s t : String) : strCmp s t ≤ 0 ∨ strCmp t s ≤ 0 := by
  rcases strLt_trichotomy s t with h | h | h
  · exact Or.inl (strCmp_nonpos_iff.mpr (Or.inl h))
  · exact Or.inl (strCmp_nonpos_iff.mpr (Or.inr h))
  · exact Or.inr (strCmp_nonpos_iff.mpr (Or.inl h))

theorem strCmpLe_trans {s t u : String} (h1 : strCmp s t ≤ 0)
    (h2 : strCmp t u ≤ 0) : strCmp s u ≤ 0 := by
  rcases strCmp_nonpos_iff.mp h1 with h1' | rfl
  · rcases strCmp_nonpos_iff.mp h2 with h2' | rfl
    · exact strCmp_nonpos_iff.mpr (Or.inl (strLt_trans h1' h2'))
    · exact strCmp_nonpos_iff.mpr (Or.inl h1')
  · exact h2

/-- Sortedness of `jsSort` under an ascending `strCmp` comparator. -/
theorem jsSort_pairwise_strCmp_asc (cmp : Repository → Repository → Int)
    (f : Repository → String) (hcmp : ∀ a b, cmp a b = strCmp (f a) (f b))
    (l : List Repository) :
    (jsSort (fun a b => decide (cmp a b ≤ 0)) l).Pairwise
      (fun a b => strLt (f a) (f b) = true ∨ f a = f b) := by
  have htot : ∀ a b, decide (cmp a b ≤ 0) = true ∨ decide (cmp b a ≤ 0) = true := by
    intro a b
    rw [hcmp, hcmp]
    simp only [decide_eq_true_iff]
    exact strCmpLe_total (f a) (f b)
  have htrans : ∀ a b c, decide (cmp a b ≤ 0) = true →
      decide (cmp b c ≤ 0) = true → decide (cmp a c ≤ 0) = true := by
    intro a b c h1 h2
    rw [hcmp] at h1 h2 ⊢
    simp only [decide_eq_true_iff] at h1 h2 ⊢
    exact strCmpLe_trans h1 h2
  refine (jsSort_sorted htot htrans l).imp ?_
  intro a b hab
  rw [hcmp] at hab
  simp only [decide_eq_true_iff] at hab
  exact strCmp_nonpos_iff.mp hab

/-- Sortedness of `jsSort` under a descending `strCmp` comparator. -/
theorem jsSort_pairwise_strCmp_desc (cmp : Repository → Repository → Int)
    (f : Repository → String) (hcmp : ∀ a b, cmp a b = strCmp (f b) (f a))
    (l : List Repository) :
    (jsSort (fun a b => decide (cmp a b ≤ 0)) l).Pairwise
      (fun a b => strLt (f b) (f a) = true ∨ f b = f a) := by
  have htot : ∀ a b, decide (cmp a b ≤ 0) = true ∨ decide (cmp b a ≤ 0) = true := by
    intro a b
    rw [hcmp, hcmp]
    simp only [decide_eq_true_iff]
    exact (strCmpLe_total (f b) (f a)).imp id id
  have htrans : ∀ a b c, decide (cmp a b ≤ 0) = true →
      decide (cmp b c ≤ 0) = true → decide (cmp a c ≤ 0) = true := by
    intro a b c h1 h2
    rw [hcmp] at h1 h2 ⊢
    simp only [decide_eq_true_iff] at h1 h2 ⊢
    exact strCmpLe_trans h2 h1
  refine (jsSort_sorted htot htrans l).imp ?_
  intro a b hab
  rw [hcmp] at hab
  simp only [decide_eq_true_iff] at hab
  exact strCmp_nonpos_iff.mp hab

/-- C4. Sort comparator semantics: `sortRepositories` permutes its input
and orders it per the `sortBy` key — 'recent-likes' ascending by
`originalIndex`, 'stars' descending / 'stars-asc' ascending by
`stargazers_count`, 'name' / 'name-desc' case-insensitively ascending /
descending by name, 'updated' and 'created' descending by the respective
timestamp — and every key outside the enumerated set sorts exactly like
'stars'. -/
theorem c4_sort_comparators (k : String) (l : List Repository) :
    sortRepositories k l ~ l
    ∧ (sortRepositories "recent-likes" l).Pairwise
        (fun a b => a.originalIndex ≤ b.originalIndex)
    ∧ (sortRepositories "stars" l).Pairwise
        (fun a b => b.stargazers_count ≤ a.stargazers_count)
    ∧ (sortRepositories "stars-asc" l).Pairwise
        (fun a b => a.stargazers_count ≤ b.stargazers_count)
    ∧ (sortRepositories "name" l).Pairwise
        (fun a b => strLt (strLower a.name) (strLower b.name) = true ∨
          strLower a.name = strLower b.name)
    ∧ (sortRepositories "name-desc" l).Pairwise
        (fun a b => strLt (strLower b.name) (strLower a.name) = true ∨
          strLower b.name = strLower a.name)
    ∧ (sortRepositories "updated" l).Pairwise
        (fun a b => b.updated_at ≤ a.updated_at)
    ∧ (sortRepositories "created" l).Pairwise
        (fun a b => b.created_at ≤ a.created_at)
    ∧ (k ∉ (["recent-likes", "stars", "stars-asc", "name", "name-desc",
          "updated", "created"] : List String) →
        sortRepositories k l = sortRepositories "stars" l) := by
  refine ⟨jsSort_perm _ _, ?_, ?_, ?_, ?_, ?_, ?_, ?_, ?_⟩
  · refine (jsSort_pairwise_of_cmp (sortCmp "recent-likes")
      (fun r => -(r.originalIndex : Int)) (by intro a b; simp [sortCmp]; omega)
      l).imp ?_
    intro a b hab
    omega
  · exact jsSort_pairwise_of_cmp (sortCmp "stars")
      (fun r => r.stargazers_count) (by intro a b; simp [sortCmp]) l
  · refine (jsSort_pairwise_of_cmp (sortCmp "stars-asc")
      (fun r => -r.stargazers_count) (by intro a b; simp [sortCmp]; ring) l).imp ?_
    intro a b hab
    omega
  · exact jsSort_pairwise_strCmp_asc (sortCmp "name")
      (fun r => strLower r.name) (by intro a b; simp [sortCmp]) l
  · exact jsSort_pairwise_strCmp_desc (sortCmp "name-desc")
      (fun r => strLower r.name) (by intro a b; simp [sortCmp]) l
  · exact jsSort_pairwise_of_cmp (sortCmp "updated")
      (fun r => r.updated_at) (by intro a b; simp [sortCmp]) l
  · exact jsSort_pairwise_of_cmp (sortCmp "created")
      (fun r => r.created_at) (by intro a b; simp [sortCmp]) l
  · intro hk
    simp only [List.mem_cons, List.mem_singleton, not_or] at hk
    obtain ⟨h1, h2, h3, h4, h5, h6, h7, -⟩ := hk
    have hcmp : (fun a b => decide (sortCmp k a b ≤ 0)) =
        (fun a b => decide (sortCmp "stars" a b ≤ 0)) := by
      funext a b
      have : sortCmp k a b = sortCmp "stars" a b := by
        simp [sortCmp, h1, h2, h3, h4, h5, h6, h7]
      rw [this]
    unfold sortRepositories
    rw [hcmp]

def c4wR1 : Repository :=
  { id := 1, name := "banana", full_name := none, description := "",
    stargazers_count := 10, language := "Go", topics := [], created_at := 3,
    updated_at := 4, owner := none, originalIndex := 0,
    searchText := "banana go", formattedStars := "10",
    relativeTime := "Just now", languageColor := "#00add8",
    searchScore := none }

def c4wR2 : Repository :=
  { id := 2, name := "Apple", full_name := none, description := "",
    stargazers_count := 50, language := "Rust", topics := [], created_at := 1,
    updated_at := 9, owner := none, originalIndex := 1,
    searchText := "apple rust", formattedStars := "50",
    relativeTime := "Just now", languageColor := "#dea584",
    searchScore := none }

def c4wR3 : Repository :=
  { id := 3, name := "cherry", full_name := none, description := "",
    stargazers_count := 5, language := "Go", topics := [], created_at := 7,
    updated_at := 2, owner := none, originalIndex := 2,
    searchText := "cherry go", formattedStars := "5",
    relativeTime := "Just now", languageColor := "#00add8",
    searchScore := none }

def c4wL : List Repository := [c4wR1, c4wR2, c4wR3]

/-- C4, witness: an unenumerated key sorts like 'stars' on a concrete
list, the 'stars' order is star-descending, and the spec's name example
`["banana","Apple","cherry"] ↦ ["Apple","banana","cherry"]` holds. -/
theorem c4_sort_comparators_witness :
    sortRepositories "size" c4wL = sortRepositories "stars" c4wL
    ∧ (sortRepositories "stars" c4wL).Pairwise
        (fun a b => b.stargazers_count ≤ a.stargazers_count)
    ∧ (sortRepositories "stars" c4wL).map Repository.stargazers_count
        = [50, 10, 5]
    ∧ (sortRepositories "name" c4wL).map Repository.name
        = ["Apple", "banana", "cherry"] := by
  refine ⟨(c4_sort_comparators "size" c4wL).2.2.2.2.2.2.2.2 (by decide),
    (c4_sort_comparators "stars" c4wL).2.2.1, by decide, by decide⟩

def c6Raw : RawRepo :=
  ⟨some 1, some "a", some "z/a", none, some 1, some "Go", none, none, none,
    some ⟨"z"⟩⟩

def c6Payload : Payload := .arr [some c6Raw]

def c6Out : List Repository := normalizePipeline 0 (flattenPayload c6Payload)

/-- C6, counterexample. `searchText` includes `full_name`, but the scoring
loop does not: the term `"z/a"` occurs only in the full name `"z/a"` of the
normalized repository, so it passes the AND pre-filter with score 0 and is
removed by the score-0 exclusion — the exclusion is reachable. -/
theorem c6_counterexample :
    processRepositoryData 0 c6Payload = .ok (c6Out, [])
    ∧ c6Out ≠ []
    ∧ c6Out.all (fun rep => hasAllTerms (searchTermsOf "z/a") rep) = true
    ∧ c6Out.all (fun rep => scoreRepo (searchTermsOf "z/a") rep == .ok 0) = true
    ∧ performAdvancedSearch c6Out "z/a" = .ok [] := by
  exact ⟨rfl, by decide, by decide, by decide, by decide⟩

/-- C6, amended: passing the AND pre-filter does not by itself force a
positive score (a term may occur only in `full_name`, which `searchText`
contains but the scoring fields ignore); the score is strictly positive
whenever, additionally, at least one term gains on a scored field (name,
description, topics, language, owner login). -/
theorem c6_amended (terms : List String) (r : Repository) (o : Owner)
    (hown : r.owner = some o) (_hA : hasAllTerms terms r = true)
    (hhit : ∃ t ∈ terms, 0 < termGain r o.login t) :
    ∃ s, scoreRepo terms r = .ok s ∧ 0 < s := by
  refine ⟨terms.foldl (fun s t => s + termGain r o.login t) 0, ?_, ?_⟩
  · unfold scoreRepo
    rw [hown]
  · obtain ⟨t0, ht0, hpos⟩ := hhit
    exact gainFoldl_pos (termGain r o.login)
      (fun t => termGain_nonneg r o.login t) ht0 hpos 0

def c6wRepo : Repository :=
  { id := 9, name := "apple", full_name := some "z/apple", description := "",
    stargazers_count := 2, language := "Go", topics := [], created_at := 0,
    updated_at := 0, owner := some ⟨"z"⟩, originalIndex := 0,
    searchText := "apple z/apple go z", formattedStars := "2",
    relativeTime := "Just now", languageColor := "#00add8",
    searchScore := none }

/-- C6, witness for the amended theorem: a term hitting the name field
yields a positive score. -/
theorem c6_amended_witness :
    ∃ s, scoreRepo (searchTermsOf "apple") c6wRepo = .ok s ∧ 0 < s :=
  c6_amended (searchTermsOf "apple") c6wRepo ⟨"z"⟩ rfl (by decide)
    ⟨"apple", by decide, by decide⟩

def c7Lo : List (String × Nat) := [("A", 999)]

def c7Ra : Repository :=
  { id := 1, name := "ra", full_name := none, description := "",
    stargazers_count := 1, language := "A", topics := [], created_at := 0,
    updated_at := 0, owner := none, originalIndex := 0, searchText := "ra a",
    formattedStars := "1", relativeTime := "Just now",
    languageColor := "#64748b", searchScore := none }

def c7Rb : Repository :=
  { id := 2, name := "rb", full_name := none, description := "",
    stargazers_count := 1, language := "B", topics := [], created_at := 0,
    updated_at := 0, owner := none, originalIndex := 1, searchText := "rb b",
    formattedStars := "1", relativeTime := "Just now",
    languageColor := "#64748b", searchScore := none }

/-- C7, counterexample. Absent languages are given the sentinel position
`999` (`?? 999`), not "after everything": a language first seen at
position 999 — which arises as soon as the grouped payload has 1000
language keys, positions counting from 0 — ties with every absent
language, and the stable sort then keeps an absent language that appears
earlier in the filtered list *before* the present one. Here `"B"` is
absent from the LanguageOrder, `"A"` is present at position 999, and the
'recently' grouping orders `"B"` first. -/
theorem c7_counterexample :
    groupRepositoriesByLanguage "recently" c7Lo [c7Rb, c7Ra]
      = [("B", [c7Rb]), ("A", [c7Ra])]
    ∧ List.lookup "B" c7Lo = none
    ∧ List.lookup "A" c7Lo = some 999 := by
  exact ⟨by decide, rfl, rfl⟩

/-- C7, amended: 'popular' mode orders groups descending by size; the
'recently' mode orders groups ascending by `languageOrder[lang] ?? 999`,
and — provided every recorded first-seen position is below the sentinel
999 (i.e. fewer than 1000 languages) — every language absent from the
LanguageOrder comes after all languages present in it. Both results are
permutations of the grouped list. -/
theorem c7_grouping_order (lo : List (String × Nat)) (l : List Repository) :
    groupRepositoriesByLanguage "popular" lo l ~ groupFold l
    ∧ (groupRepositoriesByLanguage "popular" lo l).Pairwise
        (fun a b => b.2.length ≤ a.2.length)
    ∧ groupRepositoriesByLanguage "recently" lo l ~ groupFold l
    ∧ (groupRepositoriesByLanguage "recently" lo l).Pairwise
        (fun a b => langOrderOf lo a.1 ≤ langOrderOf lo b.1)
    ∧ ((∀ kv ∈ lo, kv.2 < 999) →
        (groupRepositoriesByLanguage "recently" lo l).Pairwise
          (fun a b => List.lookup a.1 lo = none → List.lookup b.1 lo = none)) := by
  have hpop : groupRepositoriesByLanguage "popular" lo l =
      jsSort (fun a b => decide ((b.2.length : Int) - (a.2.length : Int) ≤ 0))
        (groupFold l) := by
    simp [groupRepositoriesByLanguage]
  have hrec : groupRepositoriesByLanguage "recently" lo l =
      jsSort (fun a b =>
        decide (langOrderOf lo a.1 - langOrderOf lo b.1 ≤ 0)) (groupFold l) := by
    simp [groupRepositoriesByLanguage]
  have hrecPairwise : (groupRepositoriesByLanguage "recently" lo l).Pairwise
      (fun a b => langOrderOf lo a.1 ≤ langOrderOf lo b.1) := by
    rw [hrec]
    refine (jsSort_pairwise_of_cmp
      (fun a b : String × List Repository =>
        langOrderOf lo a.1 - langOrderOf lo b.1)
      (fun x => -langOrderOf lo x.1) (by intro a b; ring) _).imp ?_
    intro a b hab
    omega
  refine ⟨?_, ?_, ?_, hrecPairwise, ?_⟩
  · rw [hpop]
    exact jsSort_perm _ _
  · rw [hpop]
    refine (jsSort_pairwise_of_cmp
      (fun a b : String × List Repository =>
        (b.2.length : Int) - (a.2.length : Int))
      (fun x => (x.2.length : Int)) (by intro a b; ring) _).imp ?_
    intro a b hab
    omega
  · rw [hrec]
    exact jsSort_perm _ _
  · intro hbound
    refine hrecPairwise.imp ?_
    intro a b hab hnone
    cases hlb : List.lookup b.1 lo with
    | none => rfl
    | some v =>
      have hv : v < 999 := hbound (b.1, v) (lookup_mem hlb)
      have ha : langOrderOf lo a.1 = 999 := by
        unfold langOrderOf
        rw [hnone]
      have hb : langOrderOf lo b.1 = (v : Int) := by
        unfold langOrderOf
        rw [hlb]
      rw [ha, hb] at hab
      omega

def c7wLo : List (String × Nat) := [("Rust", 0), ("Go", 1)]

def c7wGo : Repository :=
  { id := 1, name := "g", full_name := none, description := "",
    stargazers_count := 1, language := "Go", topics := [], created_at := 0,
    updated_at := 0, owner := none, originalIndex := 0, searchText := "g go",
    formattedStars := "1", relativeTime := "Just now",
    languageColor := "#00add8", searchScore := none }

def c7wGo2 : Repository :=
  { id := 2, name := "h", full_name := none, description := "",
    stargazers_count := 1, language := "Go", topics := [], created_at := 0,
    updated_at := 0, owner := none, originalIndex := 1, searchText := "h go",
    formattedStars := "1", relativeTime := "Just now",
    languageColor := "#00add8", searchScore := none }

def c7wRust : Repository :=
  { id := 3, name := "r", full_name := none, description := "",
    stargazers_count := 1, language := "Rust", topics := [], created_at := 0,
    updated_at := 0, owner := none, originalIndex := 2,
    searchText := "r rust", formattedStars := "1", relativeTime := "Just now",
    languageColor := "#dea584", searchScore := none }

def c7wC : Repository :=
  { id := 4, name := "c", full_name := none, description := "",
    stargazers_count := 1, language := "C", topics := [], created_at := 0,
    updated_at := 0, owner := none, originalIndex := 3, searchText := "c c",
    formattedStars := "1", relativeTime := "Just now",
    languageColor := "#64748b", searchScore := none }

def c7wL : List Repository := [c7wGo, c7wGo2, c7wRust, c7wC]

/-- C7, witness for the amended theorem: with positions below 999, the
'popular' order is size-descending and 'recently' puts the absent
language `"C"` after the present `Rust` and `Go` (the spec's
`{Rust: 0, Go: 1}` plus `"C"` example). -/
theorem c7_grouping_order_witness :
    (groupRepositoriesByLanguage "popular" c7wLo c7wL).Pairwise
      (fun a b => b.2.length ≤ a.2.length)
    ∧ (groupRepositoriesByLanguage "recently" c7wLo c7wL).Pairwise
        (fun a b => List.lookup a.1 c7wLo = none → List.lookup b.1 c7wLo = none)
    ∧ (groupRepositoriesByLanguage "recently" c7wLo c7wL).map Prod.fst
        = ["Rust", "Go", "C"]
    ∧ (groupRepositoriesByLanguage "popular" c7wLo c7wL).map Prod.fst
        = ["Go", "Rust", "C"] := by
  refine ⟨(c7_grouping_order c7wLo c7wL).2.1,
    (c7_grouping_order c7wLo c7wL).2.2.2.2 (by decide), by decide, by decide⟩

def c8Repo : Repository :=
  { id := 1, name := "alpha", full_name := none, description := "",
    stargazers_count := 5, language := "Go", topics := [], created_at := 0,
    updated_at := 0, owner := none, originalIndex := 0,
    searchText := "alpha go", formattedStars := "5",
    relativeTime := "Just now", languageColor := "#00add8",
    searchScore := none }

/-- C8, counterexample. The two compositions differ when a repository
without an `owner` matches the term but not the selected language:
searching the full list first throws on the unguarded `owner.login`,
while filtering by language first removes the repository and the search
returns an empty result. -/
theorem c8_counterexample :
    (performAdvancedSearch [c8Repo] "alpha").map (filterByLanguage "Rust")
      = .thrown
    ∧ performAdvancedSearch (filterByLanguage "Rust" [c8Repo]) "alpha"
        = .ok []
    ∧ (performAdvancedSearch [c8Repo] "alpha").map (filterByLanguage "Rust")
        ≠ performAdvancedSearch (filterByLanguage "Rust" [c8Repo]) "alpha" := by
  exact ⟨by decide, by decide, by decide⟩

/-- C8, amended: provided every repository in the list has an `owner`
(so the scoring loop cannot throw), applying the exact-equality language
filter to the search result equals searching the language-filtered list —
element for element, including the transient scores. -/
theorem c8_amended (l : List Repository) (searchTerm sel : String)
    (hown : ∀ r ∈ l, r.owner.isSome = true) :
    (performAdvancedSearch l searchTerm).map (filterByLanguage sel)
      = performAdvancedSearch (filterByLanguage sel l) searchTerm := by
  by_cases hne : searchTerm = ""
  · subst hne
    unfold performAdvancedSearch
    simp [JsResult.map]
  · have hown2 : ∀ r ∈ filterByLanguage sel l, r.owner.isSome = true := by
      intro r hr
      unfold filterByLanguage at hr
      exact hown r (List.mem_of_mem_filter hr)
    unfold performAdvancedSearch
    rw [if_neg hne, if_neg hne,
      @searchStep_total (searchTermsOf searchTerm) l hown,
      @searchStep_total (searchTermsOf searchTerm) (filterByLanguage sel l) hown2]
    unfold JsResult.map
    rw [searchKept_filterByLanguage]
    show JsResult.ok (filterByLanguage sel (jsSort scoreLe _)) = _
    unfold filterByLanguage
    rw [filter_jsSort scoreLe_total scoreLe_trans]

def c8wR1 : Repository :=
  { id := 1, name := "alpha", full_name := none, description := "",
    stargazers_count := 5, language := "Go", topics := [], created_at := 0,
    updated_at := 0, owner := some ⟨"o1"⟩, originalIndex := 0,
    searchText := "alpha go o1", formattedStars := "5",
    relativeTime := "Just now", languageColor := "#00add8",
    searchScore := none }

def c8wR2 : Repository :=
  { id := 2, name := "alphabet", full_name := none, description := "",
    stargazers_count := 7, language := "Rust", topics := [], created_at := 0,
    updated_at := 0, owner := some ⟨"o2"⟩, originalIndex := 1,
    searchText := "alphabet rust o2", formattedStars := "7",
    relativeTime := "Just now", languageColor := "#dea584",
    searchScore := none }

/-- C8, witness for the amended theorem on a concrete owner-complete
list. -/
theorem c8_amended_witness :
    (performAdvancedSearch [c8wR1, c8wR2] "alpha").map (filterByLanguage "Go")
      = performAdvancedSearch (filterByLanguage "Go" [c8wR1, c8wR2]) "alpha" :=
  c8_amended [c8wR1, c8wR2] "alpha" "Go" (by decide)

def c9Raw1 : RawRepo :=
  ⟨some 1, some "apple", none, none, some 5, none, none, none, none,
    some ⟨"o1"⟩⟩

def c9Raw2 : RawRepo :=
  ⟨some 2, some "banana", none, none, some 3, none, none, none, none,
    some ⟨"o2"⟩⟩

def c9Payload : Payload := .arr [some c9Raw1, some c9Raw2]

def c9Out : List Repository := normalizePipeline 0 (flattenPayload c9Payload)

def c9Mid : List Repository := searchMut (searchTermsOf "banana") c9Out

/-- C9, counterexample. `repo.searchScore = score` runs only *after* the
all-terms check succeeds, so a repository failing the current search keeps
whatever score an earlier pass left on it. Searching `"banana"` and then
`"apple"` on the same working set leaves the banana repository with the
stale score 10 from the first pass, although its score under the current
term `"apple"` is 0 — `searchScore` is not overwritten on each pass for
every repository in the working set. -/
theorem c9_counterexample :
    processRepositoryData 0 c9Payload = .ok (c9Out, [])
    ∧ (searchStep (searchTermsOf "banana") c9Out).map Prod.snd = .ok c9Mid
    ∧ (searchStep (searchTermsOf "apple") c9Mid).map
        (fun p => p.2.map fun r =>
          (r.name, r.searchScore, jsScoreVal (searchTermsOf "apple") r))
        = .ok [("apple", some 10, 10), ("banana", some 10, 0)] := by
  exact ⟨rfl, by decide, by decide⟩

/-- C9, amended: a sort pass permutes the very same entries, a
language-filter pass selects a sublist of them (no field of any entry
changes in either), and a successful search pass rewrites the working set
positionally so that only `searchScore` changes: entries passing the
all-terms check get `searchScore` overwritten with the current-term score,
and entries failing it are returned untouched, keeping their previous
`searchScore`. -/
theorem c9_amended (sortBy sel searchTerm : String)
    (l kept upd : List Repository)
    (h : searchStep (searchTermsOf searchTerm) l = .ok (kept, upd)) :
    sortRepositories sortBy l ~ l
    ∧ filterByLanguage sel l <+ l
    ∧ upd = l.map (fun r =>
        if hasAllTerms (searchTermsOf searchTerm) r then
          { r with searchScore := some (jsScoreVal (searchTermsOf searchTerm) r) }
        else r) := by
  refine ⟨jsSort_perm _ _, List.filter_sublist l, ?_⟩
  obtain ⟨-, hu⟩ := searchStep_ok_eq h
  rw [hu, searchMut_eq_map]

def c9wPair : List Repository × List Repository :=
  match searchStep (searchTermsOf "apple") c9Out with
  | .ok p => p
  | .thrown => ([], [])

/-- C9, witness for the amended theorem at a concrete search pass. -/
theorem c9_amended_witness :
    sortRepositories "stars" c9Out ~ c9Out
    ∧ filterByLanguage "Go" c9Out <+ c9Out
    ∧ c9wPair.2 = c9Out.map (fun r =>
        if hasAllTerms (searchTermsOf "apple") r then
          { r with searchScore := some (jsScoreVal (searchTermsOf "apple") r) }
        else r) :=
  c9_amended "stars" "Go" "apple" c9Out c9wPair.1 c9wPair.2 (by decide)
